import Mathlib

set_option maxRecDepth 4000

namespace Mnemon

/- Shallow embedding of the mnemon memory store: src/server.py (tools remember,
recall, correct, forget, list_memories, relate), src/consolidate.py (the
consolidation sweep) and src/surface.py (scoring). Timestamps are rational
hours since an arbitrary epoch: the code stores ISO-8601 UTC strings, and for
well-formed stamps of one fixed format the lexicographic string order used by
the SQL comparisons agrees with chronological order, so string comparisons
become numeric comparisons (30 days = 720 hours, 90 days = 2160 hours).
Importance and confidence are rationals. -/

/- A row of the memories table (schema in src/server.py, SCHEMA_SQL).
superseded_by encodes the lifecycle: none is Active, some of a fresh id is
Superseded, and some (-1) (sweep retirement) or some of the own id (forget)
is Retired. -/
structure Mem where
  id : Nat
  category : String
  content : String
  context : Option String
  project : Option String
  confidence : ℚ
  importance : ℚ
  access_count : Nat
  last_accessed : Option ℚ
  created_at : ℚ
  updated_at : ℚ
  source_session : Option String
  superseded_by : Option Int
deriving DecidableEq

/- The whole database: memories, tags, relations rows, plus the next id the
AUTOINCREMENT primary key will assign. -/
structure Store where
  mems : List Mem
  tags : List (Nat × String)
  relations : List (Nat × Nat × String)
  nextId : Nat
deriving DecidableEq

/- SQLite TRIM(x) with default arguments strips space characters (0x20) from
both ends. -/
def sqlTrim (s : String) : String :=
  String.mk (((s.data.dropWhile (fun c => c == ' ')).reverse.dropWhile
    (fun c => c == ' ')).reverse)

/- SQLite LOWER(x) folds only the ASCII range A-Z. -/
def asciiLowerChar (c : Char) : Char :=
  if 65 ≤ c.toNat ∧ c.toNat ≤ 90 then Char.ofNat (c.toNat + 32) else c

def sqlLower (s : String) : String :=
  String.mk (s.data.map asciiLowerChar)

/- Normalized content key used by the dedup pass: GROUP BY LOWER(TRIM(content)). -/
def normKey (s : String) : String :=
  sqlLower (sqlTrim s)

/- Decay pass condition (src/consolidate.py lines 38-46): active, never
accessed, created strictly before now minus 30 days, importance above 0.1. -/
def decayCond (now : ℚ) (m : Mem) : Prop :=
  m.superseded_by = none ∧ m.access_count = 0 ∧ m.created_at < now - 720 ∧
    (1/10 : ℚ) < m.importance

instance (now : ℚ) (m : Mem) : Decidable (decayCond now m) :=
  inferInstanceAs (Decidable (m.superseded_by = none ∧ m.access_count = 0 ∧
    m.created_at < now - 720 ∧ (1/10 : ℚ) < m.importance))

def decayStep (now : ℚ) (m : Mem) : Mem :=
  if decayCond now m then
    { m with importance := m.importance * (9/10), updated_at := now }
  else m

def decayPass (now : ℚ) (l : List Mem) : List Mem :=
  l.map (decayStep now)

/- Retirement pass condition (src/consolidate.py lines 49-57): active,
importance below 0.1, never accessed, created strictly before now minus
90 days. Retirement writes the sentinel superseded_by = -1. -/
def retireCond (now : ℚ) (m : Mem) : Prop :=
  m.superseded_by = none ∧ m.importance < (1/10 : ℚ) ∧ m.access_count = 0 ∧
    m.created_at < now - 2160

instance (now : ℚ) (m : Mem) : Decidable (retireCond now m) :=
  inferInstanceAs (Decidable (m.superseded_by = none ∧ m.importance < (1/10 : ℚ) ∧
    m.access_count = 0 ∧ m.created_at < now - 2160))

def retireStep (now : ℚ) (m : Mem) : Mem :=
  if retireCond now m then
    { m with superseded_by := some (-1), updated_at := now }
  else m

def retirePass (now : ℚ) (l : List Mem) : List Mem :=
  l.map (retireStep now)

/- Python max with key (access_count, importance) keeps the current candidate
unless the next row is strictly greater in the lexicographic tuple order. -/
def better (a b : Mem) : Bool :=
  decide (a.access_count < b.access_count) ||
    (a.access_count == b.access_count && decide (a.importance < b.importance))

def pickKeeper (c : Mem) : List Mem → Mem
  | [] => c
  | m :: rest => pickKeeper (if better c m then m else c) rest

/- Insertion sort parametrized by a boolean comparator; used for the
ascending-id order in which the dedup pass fetches the rows of a group and
for the ORDER BY of list_memories. -/
def insertOrd (le : Mem → Mem → Bool) (m : Mem) : List Mem → List Mem
  | [] => [m]
  | x :: xs => if le m x then m :: x :: xs else x :: insertOrd le m xs

def sortOrd (le : Mem → Mem → Bool) : List Mem → List Mem
  | [] => []
  | x :: xs => insertOrd le x (sortOrd le xs)

def sortById : List Mem → List Mem :=
  sortOrd (fun a b => decide (a.id ≤ b.id))

/- The active records sharing one normalized content key (the dedup GROUP BY
runs over superseded_by IS NULL rows only). -/
def activeGroup (l : List Mem) (k : String) : List Mem :=
  l.filter (fun x => decide (x.superseded_by = none ∧ normKey x.content = k))

/- The keeper of a duplicate group: the first row maximizing
(access_count, importance) when the rows are scanned in ascending id order. -/
def dedupKeeper (l : List Mem) (k : String) : Option Mem :=
  match sortById (activeGroup l k) with
  | [] => none
  | c :: rest => some (pickKeeper c rest)

/- Dedup pass (src/consolidate.py lines 59-81): every active member of a
group of two or more whose id is not the keeper id is pointed at the keeper. -/
def dedupStep (now : ℚ) (l : List Mem) (m : Mem) : Mem :=
  match dedupKeeper l (normKey m.content) with
  | none => m
  | some K =>
    if m.superseded_by = none ∧ 2 ≤ (activeGroup l (normKey m.content)).length ∧
        m.id ≠ K.id
    then { m with superseded_by := some (K.id : Int), updated_at := now }
    else m

def dedupPass (now : ℚ) (l : List Mem) : List Mem :=
  l.map (dedupStep now l)

/- The consolidation sweep: decay, then retirement, then deduplication
(src/consolidate.py, consolidate). Tags and relations are untouched. -/
def consolidateMems (now : ℚ) (l : List Mem) : List Mem :=
  dedupPass now (retirePass now (decayPass now l))

def consolidate (now : ℚ) (s : Store) : Store :=
  { s with mems := consolidateMems now s.mems }

/- INSERT OR IGNORE INTO relations. -/
def insertRel (rs : List (Nat × Nat × String)) (e : Nat × Nat × String) :
    List (Nat × Nat × String) :=
  if e ∈ rs then rs else rs ++ [e]

/- INSERT OR IGNORE INTO tags of a list of new rows, in order. -/
def insertTags (ts : List (Nat × String)) (new : List (Nat × String)) :
    List (Nat × String) :=
  new.foldl (fun acc t => if t ∈ acc then acc else acc ++ [t]) ts

/- The record inserted by correct (src/server.py lines 297-307): content is
the new text, category and project are cloned from the old record, importance
is max(old importance, 0.7), confidence is the literal 0.9, context is the
reason if truthy else a default text, and the remaining columns take their
schema defaults (access_count 0, last_accessed NULL, superseded_by NULL). -/
def newMemOf (s : Store) (now : ℚ) (sess : Option String) (oid : Nat)
    (c : String) (r : Option String) (old : Mem) : Mem :=
  { id := s.nextId
    category := old.category
    content := c
    context := some (match r with
      | some x => if x = "" then "Correction of #" ++ toString oid else x
      | none => "Correction of #" ++ toString oid)
    project := old.project
    confidence := 9/10
    importance := max old.importance (7/10)
    access_count := 0
    last_accessed := none
    created_at := now
    updated_at := now
    source_session := sess
    superseded_by := none }

/- correct (src/server.py lines 276-325): fetch the old row by id with no
lifecycle check; if absent return with no change; otherwise insert the new
record, point the old row superseded_by at the new id (updated_at is not
written), insert the supersedes edge, and copy the tags of the old record. -/
def correct (s : Store) (now : ℚ) (sess : Option String) (oid : Nat)
    (c : String) (r : Option String) : Store :=
  match s.mems.find? (fun m => m.id == oid) with
  | none => s
  | some old =>
    { mems := s.mems.map (fun m =>
        if m.id == oid then { m with superseded_by := some ((s.nextId : Nat) : Int) }
        else m) ++ [newMemOf s now sess oid c r old]
      tags := insertTags s.tags
        ((s.tags.filter (fun t => t.1 == oid)).map (fun t => (s.nextId, t.2)))
      relations := insertRel s.relations (s.nextId, oid, "supersedes")
      nextId := s.nextId + 1 }

/- forget (src/server.py lines 328-349): only an Active row with the given id
is found; if none, nothing changes; otherwise superseded_by is set to the own
id (updated_at is not written). -/
def forget (s : Store) (mid : Nat) : Store :=
  match s.mems.find? (fun m => m.superseded_by == none && m.id == mid) with
  | none => s
  | some _ =>
    { s with mems := s.mems.map (fun m =>
        if m.id == mid then { m with superseded_by := some ((m.id : Nat) : Int) }
        else m) }

/- Python truthiness: a category or project filter is applied only when the
string is non-empty (if category: / if project: in src/server.py). -/
def categoryCond (category : Option String) (m : Mem) : Bool :=
  match category with
  | none => true
  | some c => if c = "" then true else m.category == c

def projectCond (project : Option String) (m : Mem) : Bool :=
  match project with
  | none => true
  | some p => if p = "" then true else (m.project == some p || m.project == none)

/- recall row selection (src/server.py lines 213-241): the FTS oracle yields
candidate rows in rank order; the WHERE conditions filter them and LIMIT
truncates. The access-count bookkeeping does not alter the selected rows. -/
def recallCond (includeSuperseded : Bool) (category project : Option String)
    (m : Mem) : Bool :=
  (includeSuperseded || m.superseded_by == none) && categoryCond category m &&
    projectCond project m

def recallRows (candidates : List Mem) (includeSuperseded : Bool)
    (category project : Option String) (limit : ℕ) : List Mem :=
  (candidates.filter (recallCond includeSuperseded category project)).take limit

/- list_memories (src/server.py lines 352-409): active rows matching the
filters, ordered by the selected sort key descending, truncated by LIMIT.
An unknown sort string falls back to the score key. -/
def listCond (category project : Option String) (m : Mem) : Bool :=
  m.superseded_by == none && categoryCond category m && projectCond project m

def sortKeyQ (sort : String) (m : Mem) : ℚ :=
  if sort = "recency" then m.created_at
  else if sort = "importance" then m.importance
  else if sort = "accessed" then (m.access_count : ℚ)
  else m.importance * m.confidence * (1 + (m.access_count : ℚ) * (1/10))

def list_memories (ms : List Mem) (category project : Option String)
    (limit : ℕ) (sort : String) : List Mem :=
  (sortOrd (fun a b => decide (sortKeyQ sort b ≤ sortKeyQ sort a))
    (ms.filter (listCond category project))).take limit

/- Scoring (src/surface.py, score_memory). The Python or-defaults replace a
zero (or missing) importance by 0.5, confidence by 0.8. The timestamp parse
result is passed as an Option: none stands for a malformed or missing
created_at, for which the decay factor is the constant 0.5. -/
def effImportance (x : ℚ) : ℚ := if x = 0 then 1/2 else x

def effConfidence (x : ℚ) : ℚ := if x = 0 then 4/5 else x

def freqBoost (acc : ℕ) : ℚ := 1 + (acc : ℚ) * (1/10)

noncomputable def timeDecay (hoursOld : Option ℚ) : ℝ :=
  match hoursOld with
  | some h => (0.998 : ℝ) ^ (max (h : ℝ) 0)
  | none => 0.5

noncomputable def score_memory (importance confidence : ℚ) (acc : ℕ)
    (hoursOld : Option ℚ) : ℝ :=
  ((effImportance importance : ℚ) : ℝ) * ((effConfidence confidence : ℚ) : ℝ) *
    ((freqBoost acc : ℚ) : ℝ) * timeDecay hoursOld

/- Sample record and store builders for concrete evaluations. -/
def mkMem (id : Nat) (content : String) (project : Option String)
    (imp conf : ℚ) (acc : Nat) (created : ℚ) (sup : Option Int) : Mem :=
  { id := id
    category := "facts"
    content := content
    context := none
    project := project
    confidence := conf
    importance := imp
    access_count := acc
    last_accessed := none
    created_at := created
    updated_at := 0
    source_session := none
    superseded_by := sup }

def mkStore (ms : List Mem) (nid : Nat) : Store :=
  { mems := ms, tags := [], relations := [], nextId := nid }

def sampleStore : Store :=
  { mems := [mkMem 1 "x" none (1/2) (4/5) 0 0 none]
    tags := [(1, "t")]
    relations := []
    nextId := 2 }

/- The lexicographic order on (access_count, importance) that the dedup keeper
maximizes. -/
def lexLe (a b : Mem) : Prop :=
  a.access_count < b.access_count ∨
    (a.access_count = b.access_count ∧ a.importance ≤ b.importance)

/- Generic list helpers. -/

lemma mapCongrMem {α β : Type} {l : List α} {f g : α → β}
    (h : ∀ a ∈ l, f a = g a) : l.map f = l.map g := by
  induction l with
  | nil => rfl
  | cons a t ih =>
    simp only [List.map_cons]
    rw [h a (by simp), ih (fun x hx => h x (by simp [hx]))]

lemma map_eq_self_of {α : Type} {l : List α} {f : α → α}
    (h : ∀ a ∈ l, f a = a) : l.map f = l := by
  induction l with
  | nil => rfl
  | cons a t ih =>
    simp only [List.map_cons]
    rw [h a (by simp), ih (fun x hx => h x (by simp [hx]))]

lemma countP_id_le_one {l : List Mem}
    (hids : (l.map (fun m => m.id)).Nodup) (c : Nat) :
    l.countP (fun m => decide (m.id = c)) ≤ 1 := by
  induction l with
  | nil => simp
  | cons a t ih =>
    simp only [List.map_cons, List.nodup_cons] at hids
    rw [List.countP_cons]
    by_cases hac : a.id = c
    · have hz : t.countP (fun m => decide (m.id = c)) = 0 := by
        rw [List.countP_eq_zero]
        intro x hx
        simp only [decide_eq_true_eq]
        intro hxc
        exact hids.1 (List.mem_map.mpr ⟨x, hx, by rw [hxc, hac]⟩)
      simp [hz, hac]
    · have hfa : (decide (a.id = c)) = false := by simp [hac]
      simp only [hfa, if_false, Bool.false_eq_true, add_zero]
      exact ih hids.2

/- Step lemmas for the three sweep passes. -/

lemma decayStep_eq_of_not (now : ℚ) (m : Mem) (h : ¬ decayCond now m) :
    decayStep now m = m := if_neg h

lemma retireStep_eq_of_not (now : ℚ) (m : Mem) (h : ¬ retireCond now m) :
    retireStep now m = m := if_neg h

lemma decayStep_id (now : ℚ) (m : Mem) : (decayStep now m).id = m.id := by
  unfold decayStep; split <;> rfl

lemma retireStep_id (now : ℚ) (m : Mem) : (retireStep now m).id = m.id := by
  unfold retireStep; split <;> rfl

lemma dedupStep_id (now : ℚ) (l : List Mem) (m : Mem) :
    (dedupStep now l m).id = m.id := by
  unfold dedupStep
  repeat' split
  all_goals rfl

lemma decayStep_eq_or_updated (now : ℚ) (m : Mem) :
    decayStep now m = m ∨ (decayStep now m).updated_at = now := by
  unfold decayStep; split
  · exact Or.inr rfl
  · exact Or.inl rfl

lemma retireStep_eq_or_updated (now : ℚ) (m : Mem) :
    retireStep now m = m ∨ (retireStep now m).updated_at = now := by
  unfold retireStep; split
  · exact Or.inr rfl
  · exact Or.inl rfl

lemma dedupStep_eq_or_updated (now : ℚ) (l : List Mem) (m : Mem) :
    dedupStep now l m = m ∨ (dedupStep now l m).updated_at = now := by
  unfold dedupStep
  repeat' split
  all_goals first
    | exact Or.inl rfl
    | exact Or.inr rfl

lemma dedupStep_active_eq (now : ℚ) (l : List Mem) (m : Mem)
    (h : (dedupStep now l m).superseded_by = none) : dedupStep now l m = m := by
  unfold dedupStep at h ⊢
  cases hk : dedupKeeper l (normKey m.content) with
  | none => rfl
  | some K =>
    rw [hk] at h
    dsimp only at h ⊢
    by_cases hc : m.superseded_by = none ∧
        2 ≤ (activeGroup l (normKey m.content)).length ∧ m.id ≠ K.id
    · rw [if_pos hc] at h
      exact absurd h (by simp)
    · rw [if_neg hc]

lemma retireStep_active (now : ℚ) (m : Mem)
    (h : (retireStep now m).superseded_by = none) :
    retireStep now m = m ∧ ¬ retireCond now m := by
  by_cases hc : retireCond now m
  · exfalso
    unfold retireStep at h
    rw [if_pos hc] at h
    exact Option.noConfusion h
  · exact ⟨retireStep_eq_of_not now m hc, hc⟩

lemma ids_decayPass (now : ℚ) (l : List Mem) :
    (decayPass now l).map (fun m => m.id) = l.map (fun m => m.id) := by
  unfold decayPass
  rw [List.map_map]
  exact mapCongrMem (fun a _ => decayStep_id now a)

lemma ids_retirePass (now : ℚ) (l : List Mem) :
    (retirePass now l).map (fun m => m.id) = l.map (fun m => m.id) := by
  unfold retirePass
  rw [List.map_map]
  exact mapCongrMem (fun a _ => retireStep_id now a)

lemma no_retireCond_consolidate (now : ℚ) (l : List Mem) :
    ∀ m ∈ consolidateMems now l, ¬ retireCond now m := by
  intro m hm hcond
  unfold consolidateMems dedupPass at hm
  obtain ⟨m2, hm2, rfl⟩ := List.mem_map.mp hm
  have heq := dedupStep_active_eq now _ m2 hcond.1
  rw [heq] at hcond
  unfold retirePass at hm2
  obtain ⟨m1, _, rfl⟩ := List.mem_map.mp hm2
  obtain ⟨he1, hnc⟩ := retireStep_active now m1 hcond.1
  rw [he1] at hcond
  exact hnc hcond

/- Sorting and keeper-selection lemmas. -/

lemma mem_insertOrd (le : Mem → Mem → Bool) (m a : Mem) (l : List Mem) :
    a ∈ insertOrd le m l ↔ a = m ∨ a ∈ l := by
  induction l with
  | nil => simp [insertOrd]
  | cons x xs ih =>
    unfold insertOrd
    split
    · simp [List.mem_cons]
    · simp only [List.mem_cons, ih]
      tauto

lemma mem_sortOrd (le : Mem → Mem → Bool) (a : Mem) (l : List Mem) :
    a ∈ sortOrd le l ↔ a ∈ l := by
  induction l with
  | nil => simp [sortOrd]
  | cons x xs ih =>
    unfold sortOrd
    rw [mem_insertOrd]
    simp [ih]

lemma length_insertOrd (le : Mem → Mem → Bool) (m : Mem) (l : List Mem) :
    (insertOrd le m l).length = l.length + 1 := by
  induction l with
  | nil => rfl
  | cons x xs ih =>
    unfold insertOrd
    split
    · simp
    · simp [ih]

lemma length_sortOrd (le : Mem → Mem → Bool) (l : List Mem) :
    (sortOrd le l).length = l.length := by
  induction l with
  | nil => rfl
  | cons x xs ih =>
    unfold sortOrd
    rw [length_insertOrd, ih]
    simp

lemma lexLe_refl (a : Mem) : lexLe a a := Or.inr ⟨rfl, le_refl _⟩

lemma lexLe_trans {a b c : Mem} (h1 : lexLe a b) (h2 : lexLe b c) : lexLe a c := by
  rcases h1 with h1 | ⟨h1e, h1i⟩ <;> rcases h2 with h2 | ⟨h2e, h2i⟩
  · exact Or.inl (by omega)
  · exact Or.inl (by omega)
  · exact Or.inl (by omega)
  · exact Or.inr ⟨by omega, le_trans h1i h2i⟩

lemma better_true_iff (a b : Mem) : better a b = true ↔
    (a.access_count < b.access_count ∨
      (a.access_count = b.access_count ∧ a.importance < b.importance)) := by
  unfold better
  simp [Bool.or_eq_true, Bool.and_eq_true, decide_eq_true_eq, beq_iff_eq]

lemma lexLe_of_better_true {a b : Mem} (h : better a b = true) : lexLe a b := by
  rcases (better_true_iff a b).mp h with h | ⟨he, hi⟩
  · exact Or.inl h
  · exact Or.inr ⟨he, le_of_lt hi⟩

lemma lexLe_of_better_false {a b : Mem} (h : better a b = false) : lexLe b a := by
  have h2 : ¬ (a.access_count < b.access_count ∨
      (a.access_count = b.access_count ∧ a.importance < b.importance)) := by
    rw [← better_true_iff, h]
    simp
  push_neg at h2
  obtain ⟨hle, himp⟩ := h2
  rcases Nat.lt_or_ge b.access_count a.access_count with hlt | hge
  · exact Or.inl hlt
  · have heq : b.access_count = a.access_count := le_antisymm hle hge
    exact Or.inr ⟨heq, himp heq.symm⟩

lemma pickKeeper_mem (c : Mem) (rest : List Mem) : pickKeeper c rest ∈ c :: rest := by
  induction rest generalizing c with
  | nil => simp [pickKeeper]
  | cons m t ih =>
    unfold pickKeeper
    have h := ih (if better c m then m else c)
    rcases List.mem_cons.mp h with he | ht
    · rw [he]
      split <;> simp
    · exact List.mem_cons_of_mem _ (List.mem_cons_of_mem _ ht)

lemma pickKeeper_max (c : Mem) (rest : List Mem) :
    ∀ x ∈ c :: rest, lexLe x (pickKeeper c rest) := by
  induction rest generalizing c with
  | nil =>
    intro x hx
    rw [List.mem_singleton] at hx
    rw [hx]
    exact lexLe_refl c
  | cons m t ih =>
    intro x hx
    unfold pickKeeper
    have hc2 : lexLe c (if better c m then m else c) := by
      cases hb : better c m
      · simpa [hb] using lexLe_refl c
      · simpa [hb] using lexLe_of_better_true hb
    have hm2 : lexLe m (if better c m then m else c) := by
      cases hb : better c m
      · simpa [hb] using lexLe_of_better_false hb
      · simpa [hb] using lexLe_refl m
    have hrec := ih (if better c m then m else c)
    have htop : lexLe (if better c m then m else c)
        (pickKeeper (if better c m then m else c) t) :=
      hrec _ (List.mem_cons_self _ _)
    rcases List.mem_cons.mp hx with rfl | hx2
    · exact lexLe_trans hc2 htop
    rcases List.mem_cons.mp hx2 with rfl | hx3
    · exact lexLe_trans hm2 htop
    · exact hrec x (List.mem_cons_of_mem _ hx3)

/- Second-run dedup groups are singletons. -/

lemma keeper_exists_of_two (l : List Mem) (k : String)
    (h2 : 2 ≤ (activeGroup l k).length) : ∃ K, dedupKeeper l k = some K := by
  unfold dedupKeeper
  cases hs : sortById (activeGroup l k) with
  | nil =>
    exfalso
    have hlen := length_sortOrd (fun a b => decide (a.id ≤ b.id)) (activeGroup l k)
    unfold sortById at hs
    rw [hs] at hlen
    simp at hlen
    omega
  | cons c rest => exact ⟨pickKeeper c rest, rfl⟩

lemma activeGroup_dedup_le_one (now : ℚ) (l : List Mem)
    (hids : (l.map (fun m => m.id)).Nodup) (k : String) :
    (activeGroup (dedupPass now l) k).length ≤ 1 := by
  have hgoal : (activeGroup (dedupPass now l) k).length
      = List.countP
          (fun x => decide (x.superseded_by = none ∧ normKey x.content = k))
          (dedupPass now l) := by
    unfold activeGroup
    rw [List.countP_eq_length_filter]
  rw [hgoal]
  unfold dedupPass
  rw [List.countP_map]
  have hkey : ∀ m : Mem,
      (fun x => decide (x.superseded_by = none ∧ normKey x.content = k))
        (dedupStep now l m) = true →
      m.superseded_by = none ∧ normKey m.content = k ∧ dedupStep now l m = m := by
    intro m hm
    simp only [decide_eq_true_eq] at hm
    have heq := dedupStep_active_eq now l m hm.1
    rw [heq] at hm
    exact ⟨hm.1, hm.2, heq⟩
  by_cases hG : 2 ≤ (activeGroup l k).length
  · obtain ⟨K, hK⟩ := keeper_exists_of_two l k hG
    have himp : ∀ m ∈ l,
        ((fun x => decide (x.superseded_by = none ∧ normKey x.content = k)) ∘
          dedupStep now l) m = true →
        (fun m => decide (m.id = K.id)) m = true := by
      intro m _ hm
      obtain ⟨hact, hkey2, heq⟩ := hkey m hm
      simp only [decide_eq_true_eq]
      by_contra hne
      have hstep : dedupStep now l m =
          { m with superseded_by := some ((K.id : Nat) : Int), updated_at := now } := by
        unfold dedupStep
        rw [hkey2, hK]
        dsimp only
        rw [if_pos ⟨hact, hG, hne⟩]
      rw [hstep] at heq
      have hcontr := congrArg Mem.superseded_by heq
      simp only [hact] at hcontr
      exact Option.noConfusion hcontr
    calc List.countP
          ((fun x => decide (x.superseded_by = none ∧ normKey x.content = k)) ∘
            dedupStep now l) l
        ≤ List.countP (fun m => decide (m.id = K.id)) l :=
          List.countP_mono_left himp
      _ ≤ 1 := countP_id_le_one hids K.id
  · have himp : ∀ m ∈ l,
        ((fun x => decide (x.superseded_by = none ∧ normKey x.content = k)) ∘
          dedupStep now l) m = true →
        (fun x => decide (x.superseded_by = none ∧ normKey x.content = k)) m = true := by
      intro m _ hm
      obtain ⟨hact, hkey2, _⟩ := hkey m hm
      simp only [decide_eq_true_eq]
      exact ⟨hact, hkey2⟩
    calc List.countP
          ((fun x => decide (x.superseded_by = none ∧ normKey x.content = k)) ∘
            dedupStep now l) l
        ≤ List.countP
            (fun x => decide (x.superseded_by = none ∧ normKey x.content = k)) l :=
          List.countP_mono_left himp
      _ = (activeGroup l k).length := by
          unfold activeGroup
          rw [List.countP_eq_length_filter]
      _ ≤ 1 := by omega

lemma dedupPass_idem (now : ℚ) (l : List Mem)
    (hids : (l.map (fun m => m.id)).Nodup) :
    dedupPass now (dedupPass now l) = dedupPass now l := by
  have hrw : dedupPass now (dedupPass now l)
      = (dedupPass now l).map (dedupStep now (dedupPass now l)) := rfl
  rw [hrw]
  apply map_eq_self_of
  intro m hm
  unfold dedupStep
  cases hk : dedupKeeper (dedupPass now l) (normKey m.content) with
  | none => rfl
  | some K =>
    dsimp only
    rw [if_neg]
    rintro ⟨hact, h2, -⟩
    have hmem : m ∈ activeGroup (dedupPass now l) (normKey m.content) := by
      unfold activeGroup
      rw [List.mem_filter]
      exact ⟨hm, by simp [hact]⟩
    have h1 := List.length_pos_of_mem hmem
    have hle := activeGroup_dedup_le_one now l hids (normKey m.content)
    omega

/-- C4 (amended: the age bound is strict, created strictly before now minus
30 days, as the SQL comparison created_at < cutoff is strict): in the decay
pass, the record at any position decays exactly when decayCond holds, in
which case its importance is multiplied by 0.9, its confidence, lifecycle
state, access count, creation time and content are unchanged and its
updated_at is set to the sweep time; otherwise the record is unchanged. -/
theorem decay_pass_spec (now : ℚ) (l : List Mem) (i : ℕ) (m : Mem)
    (hm : l[i]? = some m) :
    ∃ m2 : Mem, (decayPass now l)[i]? = some m2 ∧
      (decayCond now m → m2.importance = m.importance * (9/10) ∧
        m2.confidence = m.confidence ∧ m2.superseded_by = m.superseded_by ∧
        m2.access_count = m.access_count ∧ m2.created_at = m.created_at ∧
        m2.content = m.content ∧ m2.updated_at = now) ∧
      (¬ decayCond now m → m2 = m) := by
  refine ⟨decayStep now m, ?_, ?_, ?_⟩
  · unfold decayPass
    rw [List.getElem?_map, hm]
    rfl
  · intro h
    unfold decayStep
    rw [if_pos h]
    exact ⟨rfl, rfl, rfl, rfl, rfl, rfl, rfl⟩
  · intro h
    exact if_neg h

/-- C4 witness: a record 35 days old (now = 840 hours, created at 0) with
importance 0.5 and no accesses satisfies the decay condition and the decay
pass multiplies its importance by 0.9 leaving it Active. -/
theorem decay_pass_spec_witness :
    ([mkMem 1 "a" none (1/2) (4/5) 0 0 none][0]?
      = some (mkMem 1 "a" none (1/2) (4/5) 0 0 none)) ∧
    decayCond 840 (mkMem 1 "a" none (1/2) (4/5) 0 0 none) ∧
    (∃ m2 : Mem,
      (decayPass 840 [mkMem 1 "a" none (1/2) (4/5) 0 0 none])[0]? = some m2 ∧
      (decayCond 840 (mkMem 1 "a" none (1/2) (4/5) 0 0 none) →
        m2.importance = (mkMem 1 "a" none (1/2) (4/5) 0 0 none).importance * (9/10) ∧
        m2.confidence = (mkMem 1 "a" none (1/2) (4/5) 0 0 none).confidence ∧
        m2.superseded_by = (mkMem 1 "a" none (1/2) (4/5) 0 0 none).superseded_by ∧
        m2.access_count = (mkMem 1 "a" none (1/2) (4/5) 0 0 none).access_count ∧
        m2.created_at = (mkMem 1 "a" none (1/2) (4/5) 0 0 none).created_at ∧
        m2.content = (mkMem 1 "a" none (1/2) (4/5) 0 0 none).content ∧
        m2.updated_at = 840) ∧
      (¬ decayCond 840 (mkMem 1 "a" none (1/2) (4/5) 0 0 none) →
        m2 = mkMem 1 "a" none (1/2) (4/5) 0 0 none)) :=
  ⟨rfl, by with_unfolding_all decide, decay_pass_spec 840 _ 0 _ rfl⟩

/-- C4 counterexample: a record created exactly 30 days before the sweep
(now = 720 hours, created at 0) has age ≥ 30 days, zero accesses, importance
0.5 > 0.1 and is Active, yet the decay pass leaves its importance at 0.5
instead of reducing it to 0.45, because the code compares created_at
strictly against the cutoff. -/
theorem decay_boundary_cex :
    (mkMem 1 "a" none (1/2) (4/5) 0 0 none).superseded_by = none ∧
    (mkMem 1 "a" none (1/2) (4/5) 0 0 none).access_count = 0 ∧
    (720 : ℚ) - (mkMem 1 "a" none (1/2) (4/5) 0 0 none).created_at = 720 ∧
    (1/10 : ℚ) < (mkMem 1 "a" none (1/2) (4/5) 0 0 none).importance ∧
    (decayPass 720 [mkMem 1 "a" none (1/2) (4/5) 0 0 none]).map
      (fun m => m.importance) = [1/2] := by
  with_unfolding_all decide

/-- C5 (amended: the age bound is strict, created strictly before now minus
90 days, as the SQL comparison created_at < cutoff is strict): in the
retirement pass, the record at any position is retired exactly when
retireCond holds, in which case superseded_by becomes the sentinel -1 and
updated_at the sweep time; any record failing the condition is unchanged,
so no other record is retired by the pass. -/
theorem retire_pass_spec (now : ℚ) (l : List Mem) (i : ℕ) (m : Mem)
    (hm : l[i]? = some m) :
    ∃ m2 : Mem, (retirePass now l)[i]? = some m2 ∧
      (retireCond now m →
        m2 = { m with superseded_by := some (-1), updated_at := now }) ∧
      (¬ retireCond now m → m2 = m) := by
  refine ⟨retireStep now m, ?_, ?_, ?_⟩
  · unfold retirePass
    rw [List.getElem?_map, hm]
    rfl
  · intro h
    exact if_pos h
  · intro h
    exact if_neg h

/-- C5 witness: a record 100 days old (now = 2400 hours, created at 0) with
importance 0.05 and no accesses satisfies the retirement condition and the
retirement pass flips it to the sentinel form. -/
theorem retire_pass_spec_witness :
    ([mkMem 1 "a" none (1/20) (4/5) 0 0 none][0]?
      = some (mkMem 1 "a" none (1/20) (4/5) 0 0 none)) ∧
    retireCond 2400 (mkMem 1 "a" none (1/20) (4/5) 0 0 none) ∧
    (∃ m2 : Mem,
      (retirePass 2400 [mkMem 1 "a" none (1/20) (4/5) 0 0 none])[0]? = some m2 ∧
      (retireCond 2400 (mkMem 1 "a" none (1/20) (4/5) 0 0 none) →
        m2 = { mkMem 1 "a" none (1/20) (4/5) 0 0 none with
          superseded_by := some (-1), updated_at := 2400 }) ∧
      (¬ retireCond 2400 (mkMem 1 "a" none (1/20) (4/5) 0 0 none) →
        m2 = mkMem 1 "a" none (1/20) (4/5) 0 0 none)) :=
  ⟨rfl, by with_unfolding_all decide, retire_pass_spec 2400 _ 0 _ rfl⟩

/-- C5 counterexample: a record created exactly 90 days before the sweep
(now = 2160 hours, created at 0) has age ≥ 90 days, importance 0.05 < 0.1,
zero accesses and is Active, yet the retirement pass leaves it Active,
because the code compares created_at strictly against the cutoff. -/
theorem retire_boundary_cex :
    (mkMem 1 "a" none (1/20) (4/5) 0 0 none).superseded_by = none ∧
    (mkMem 1 "a" none (1/20) (4/5) 0 0 none).access_count = 0 ∧
    (2160 : ℚ) - (mkMem 1 "a" none (1/20) (4/5) 0 0 none).created_at = 2160 ∧
    (mkMem 1 "a" none (1/20) (4/5) 0 0 none).importance < (1/10 : ℚ) ∧
    (retirePass 2160 [mkMem 1 "a" none (1/20) (4/5) 0 0 none]).map
      (fun m => m.superseded_by) = [none] := by
  with_unfolding_all decide

/-- C7: forget on a store in which every record carrying the requested id is
non-Active (already Superseded or Retired) is a strict no-op: the store,
hence every field of every record, every tag and every relation, is
unchanged; combined with the definition this shows forget retires a record
only when it is Active. -/
theorem forget_nonactive_noop (s : Store) (mid : Nat)
    (h : ∀ m ∈ s.mems, m.id = mid → m.superseded_by ≠ none) :
    forget s mid = s := by
  have hf : s.mems.find? (fun m => m.superseded_by == none && m.id == mid)
      = none := by
    rw [List.find?_eq_none]
    intro x hx
    simp only [Bool.and_eq_true, beq_iff_eq, not_and]
    intro hsup hid
    exact absurd hsup (h x hx hid)
  unfold forget
  rw [hf]

/-- C7 witness: forgetting a record that is already Retired (sentinel -1)
leaves the store unchanged. -/
theorem forget_nonactive_noop_witness :
    (∀ m ∈ (mkStore [mkMem 1 "a" none (1/2) (4/5) 0 0 (some (-1))] 2).mems,
      m.id = 1 → m.superseded_by ≠ none) ∧
    forget (mkStore [mkMem 1 "a" none (1/2) (4/5) 0 0 (some (-1))] 2) 1
      = mkStore [mkMem 1 "a" none (1/2) (4/5) 0 0 (some (-1))] 2 :=
  ⟨by decide, forget_nonactive_noop _ 1 (by decide)⟩

/- Helper lemmas for correct. -/

lemma correct_eq_of_none (s : Store) (now : ℚ) (sess : Option String)
    (oid : Nat) (c : String) (r : Option String)
    (h : s.mems.find? (fun m => m.id == oid) = none) :
    correct s now sess oid c r = s := by
  unfold correct
  rw [h]

lemma correct_eq_of_some (s : Store) (now : ℚ) (sess : Option String)
    (oid : Nat) (c : String) (r : Option String) (old : Mem)
    (h : s.mems.find? (fun m => m.id == oid) = some old) :
    correct s now sess oid c r =
      { mems := s.mems.map (fun m =>
          if m.id == oid then { m with superseded_by := some ((s.nextId : Nat) : Int) }
          else m) ++ [newMemOf s now sess oid c r old]
        tags := insertTags s.tags
          ((s.tags.filter (fun t => t.1 == oid)).map (fun t => (s.nextId, t.2)))
        relations := insertRel s.relations (s.nextId, oid, "supersedes")
        nextId := s.nextId + 1 } := by
  unfold correct
  rw [h]

lemma self_mem_insertRel (rs : List (Nat × Nat × String)) (e : Nat × Nat × String) :
    e ∈ insertRel rs e := by
  unfold insertRel
  split
  · assumption
  · simp

lemma mem_insertTags (new : List (Nat × String)) (ts : List (Nat × String))
    (x : Nat × String) : x ∈ insertTags ts new ↔ x ∈ ts ∨ x ∈ new := by
  induction new generalizing ts with
  | nil => simp [insertTags]
  | cons t rest ih =>
    unfold insertTags at ih ⊢
    simp only [List.foldl_cons]
    rw [ih]
    by_cases hmem : t ∈ ts
    · rw [if_pos hmem]
      simp only [List.mem_cons]
      constructor
      · rintro (h | h)
        · exact Or.inl h
        · exact Or.inr (Or.inr h)
      · rintro (h | rfl | h)
        · exact Or.inl h
        · exact Or.inl hmem
        · exact Or.inr h
    · rw [if_neg hmem]
      simp only [List.mem_append, List.mem_singleton, List.mem_cons]
      tauto

lemma find?_id_of_nodup (l : List Mem)
    (hids : (l.map (fun m => m.id)).Nodup) (old : Mem) (h : old ∈ l) :
    l.find? (fun m => m.id == old.id) = some old := by
  induction l with
  | nil => cases h
  | cons a t ih =>
    simp only [List.map_cons, List.nodup_cons] at hids
    rcases List.mem_cons.mp h with rfl | ht
    · exact List.find?_cons_of_pos t (by simp)
    · have hne : a.id ≠ old.id := by
        intro he
        exact hids.1 (List.mem_map.mpr ⟨old, ht, he.symm⟩)
      rw [List.find?_cons_of_neg t (by simp [hne])]
      exact ih hids.2 ht

/-- C6 (amended: correct performs no lifecycle check: calling it on a
non-Active, that is Superseded or Retired, existing record is accepted
exactly as on an Active one — it appends one new Active record, inserts the
supersedes edge from the new id to the old id, and overwrites the old
record superseded_by with the new id; only a nonexistent id is rejected,
leaving the store unchanged): if the id does not resolve, correct is the
identity; if it resolves to a non-Active record, the store still gains
exactly one record, the new record is Active, the supersedes edge is
present, and every record carrying the old id has superseded_by overwritten
to the new id. -/
theorem correct_any_state (s : Store) (now : ℚ) (sess : Option String)
    (oid : Nat) (c : String) (r : Option String)
    (hwfm : ∀ m ∈ s.mems, m.id < s.nextId) :
    (s.mems.find? (fun m => m.id == oid) = none → correct s now sess oid c r = s) ∧
    (∀ old : Mem, s.mems.find? (fun m => m.id == oid) = some old →
      old.superseded_by ≠ none →
      (correct s now sess oid c r).mems.length = s.mems.length + 1 ∧
      (s.nextId, oid, "supersedes") ∈ (correct s now sess oid c r).relations ∧
      newMemOf s now sess oid c r old ∈ (correct s now sess oid c r).mems ∧
      (newMemOf s now sess oid c r old).superseded_by = none ∧
      (∀ m2 ∈ (correct s now sess oid c r).mems, m2.id = oid →
        m2.superseded_by = some ((s.nextId : Nat) : Int))) := by
  constructor
  · intro h
    exact correct_eq_of_none s now sess oid c r h
  · intro old hf _
    have holdmem : old ∈ s.mems := List.mem_of_find?_eq_some hf
    have holdid : old.id = oid := by
      have := List.find?_some hf
      simpa using this
    have hlt : oid < s.nextId := holdid ▸ hwfm old holdmem
    rw [correct_eq_of_some s now sess oid c r old hf]
    refine ⟨?_, ?_, ?_, rfl, ?_⟩
    · simp
    · exact self_mem_insertRel _ _
    · simp
    · intro m2 hm2 hid2
      dsimp only at hm2
      rcases List.mem_append.mp hm2 with h | h
      · obtain ⟨m, _, rfl⟩ := List.mem_map.mp h
        by_cases hc2 : (m.id == oid) = true
        · rw [if_pos hc2]
        · rw [if_neg hc2] at hid2 ⊢
          exfalso
          exact hc2 (by simp [hid2])
      · rw [List.mem_singleton] at h
        subst h
        exfalso
        have hnid : s.nextId = oid := hid2
        omega

/-- C6 witness: correcting a Retired record (sentinel -1) is accepted: the
store gains one record and the record carrying the old id 1 has its
superseded_by overwritten to the new id 2. -/
theorem correct_any_state_witness :
    (∀ m ∈ (mkStore [mkMem 1 "a" none (1/2) (4/5) 0 0 (some (-1))] 2).mems,
      m.id < (mkStore [mkMem 1 "a" none (1/2) (4/5) 0 0 (some (-1))] 2).nextId) ∧
    (mkStore [mkMem 1 "a" none (1/2) (4/5) 0 0 (some (-1))] 2).mems.find?
      (fun m => m.id == 1) = some (mkMem 1 "a" none (1/2) (4/5) 0 0 (some (-1))) ∧
    (mkMem 1 "a" none (1/2) (4/5) 0 0 (some (-1))).superseded_by ≠ none ∧
    (correct (mkStore [mkMem 1 "a" none (1/2) (4/5) 0 0 (some (-1))] 2)
      5 none 1 "x" none).mems.length
      = (mkStore [mkMem 1 "a" none (1/2) (4/5) 0 0 (some (-1))] 2).mems.length + 1 ∧
    (∀ m2 ∈ (correct (mkStore [mkMem 1 "a" none (1/2) (4/5) 0 0 (some (-1))] 2)
        5 none 1 "x" none).mems, m2.id = 1 →
      m2.superseded_by = some ((2 : Nat) : Int)) := by
  have h := correct_any_state (mkStore [mkMem 1 "a" none (1/2) (4/5) 0 0 (some (-1))] 2)
    5 none 1 "x" none (by decide)
  have h2 := h.2 (mkMem 1 "a" none (1/2) (4/5) 0 0 (some (-1)))
    (by with_unfolding_all rfl) (by decide)
  exact ⟨by decide, by with_unfolding_all rfl, by decide, h2.1, h2.2.2.2.2⟩

/-- C6 counterexample: calling correct on a Retired record is not rejected:
a new record is created and a supersedes edge inserted, so the store
changes. -/
theorem correct_nonactive_cex :
    (mkStore [mkMem 1 "a" none (1/2) (4/5) 0 0 (some (-1))] 2).mems.length = 1 ∧
    (mkMem 1 "a" none (1/2) (4/5) 0 0 (some (-1))).superseded_by = some (-1) ∧
    (correct (mkStore [mkMem 1 "a" none (1/2) (4/5) 0 0 (some (-1))] 2)
      5 none 1 "x" none).mems.length = 2 ∧
    (2, 1, "supersedes") ∈ (correct (mkStore [mkMem 1 "a" none (1/2) (4/5) 0 0 (some (-1))] 2)
      5 none 1 "x" none).relations := by
  with_unfolding_all decide

/- Helper for C8: every record of a sweep result is either an input record
or carries the sweep time in updated_at. -/
lemma consolidateMems_mem_or_updated (now : ℚ) (l : List Mem) :
    ∀ m ∈ consolidateMems now l, m ∈ l ∨ m.updated_at = now := by
  intro m hm
  unfold consolidateMems dedupPass at hm
  obtain ⟨m2, hm2, rfl⟩ := List.mem_map.mp hm
  rcases dedupStep_eq_or_updated now _ m2 with he | hu
  · rw [he]
    unfold retirePass at hm2
    obtain ⟨m1, hm1, rfl⟩ := List.mem_map.mp hm2
    rcases retireStep_eq_or_updated now m1 with he1 | hu1
    · rw [he1]
      unfold decayPass at hm1
      obtain ⟨m0, hm0, rfl⟩ := List.mem_map.mp hm1
      rcases decayStep_eq_or_updated now m0 with he0 | hu0
      · rw [he0]
        exact Or.inl hm0
      · exact Or.inr hu0
    · exact Or.inr hu1
  · exact Or.inr hu

/-- C8 (amended: the consolidation sweep stamps updated_at with the sweep
time on every record it modifies, but forget and correct write only
superseded_by on the old record and leave its updated_at unchanged): every
sweep output record is an unchanged input record or has updated_at = now;
forget preserves the updated_at of every record; correct preserves the
updated_at of every pre-existing record (only the appended new record
carries the new timestamp). -/
theorem updated_at_policy (now : ℚ) (l : List Mem) (s s2 : Store)
    (mid oid : Nat) (sess : Option String) (c : String) (r : Option String) :
    (∀ m ∈ consolidateMems now l, m ∈ l ∨ m.updated_at = now) ∧
    ((forget s mid).mems.map (fun m => m.updated_at)
      = s.mems.map (fun m => m.updated_at)) ∧
    (((correct s2 now sess oid c r).mems.take s2.mems.length).map
      (fun m => m.updated_at) = s2.mems.map (fun m => m.updated_at)) := by
  refine ⟨consolidateMems_mem_or_updated now l, ?_, ?_⟩
  · unfold forget
    cases hf : s.mems.find? (fun m => m.superseded_by == none && m.id == mid) with
    | none => rfl
    | some x =>
      dsimp only
      rw [List.map_map]
      exact mapCongrMem (fun a _ => by
        dsimp only [Function.comp]
        split <;> rfl)
  · cases hf : s2.mems.find? (fun m => m.id == oid) with
    | none =>
      rw [correct_eq_of_none s2 now sess oid c r hf, List.take_length]
    | some old =>
      rw [correct_eq_of_some s2 now sess oid c r old hf]
      dsimp only
      have hlen : s2.mems.length = (s2.mems.map (fun m =>
          if m.id == oid then { m with superseded_by := some ((s2.nextId : Nat) : Int) }
          else m)).length := by simp
      rw [hlen, List.take_left, List.map_map]
      exact mapCongrMem (fun a _ => by
        dsimp only [Function.comp]
        split <;> rfl)

/-- C8 witness: the policy instantiated at a singleton store with an Active
record and an empty sweep input. -/
theorem updated_at_policy_witness :
    (∀ m ∈ consolidateMems 5 ([] : List Mem), m ∈ ([] : List Mem) ∨ m.updated_at = 5) ∧
    ((forget (mkStore [mkMem 1 "a" none (1/2) (4/5) 0 0 none] 2) 1).mems.map
      (fun m => m.updated_at)
      = (mkStore [mkMem 1 "a" none (1/2) (4/5) 0 0 none] 2).mems.map
        (fun m => m.updated_at)) ∧
    (((correct (mkStore [mkMem 1 "a" none (1/2) (4/5) 0 0 none] 2) 5 none 1 "x" none).mems.take
      (mkStore [mkMem 1 "a" none (1/2) (4/5) 0 0 none] 2).mems.length).map
      (fun m => m.updated_at)
      = (mkStore [mkMem 1 "a" none (1/2) (4/5) 0 0 none] 2).mems.map
        (fun m => m.updated_at)) :=
  updated_at_policy 5 [] (mkStore [mkMem 1 "a" none (1/2) (4/5) 0 0 none] 2)
    (mkStore [mkMem 1 "a" none (1/2) (4/5) 0 0 none] 2) 1 1 none "x" none

/-- C8 counterexample: forget flips superseded_by of an Active record while
leaving updated_at at its old value 0, and correct at time 5 flips the old
record superseded_by while leaving its updated_at at 0 (only the new record
carries 5), so these mutations do not bump updated_at. -/
theorem updated_at_cex :
    ((forget (mkStore [mkMem 1 "a" none (1/2) (4/5) 0 0 none] 2) 1).mems.map
      (fun m => (m.superseded_by, m.updated_at)) = [(some 1, 0)]) ∧
    ((correct (mkStore [mkMem 1 "a" none (1/2) (4/5) 0 0 none] 2)
      5 none 1 "x" none).mems.map
      (fun m => (m.superseded_by, m.updated_at)) = [(some 2, 0), (none, 5)]) := by
  with_unfolding_all decide

/-- C10 (amended: the claim holds for every non-empty project filter; the
code skips the filter entirely for the empty string, a Python truthiness
effect): with a non-empty project filter, recall and list_memories return
only records whose project equals the filter or is null, and a record with
null project always passes the project condition. -/
theorem project_filter_spec (p : String) (hp : p ≠ "") (cands ms : List Mem)
    (cat : Option String) (inc : Bool) (lim : ℕ) (sort : String) :
    (∀ m ∈ recallRows cands inc cat (some p) lim,
      m.project = some p ∨ m.project = none) ∧
    (∀ m ∈ list_memories ms cat (some p) lim sort,
      m.project = some p ∨ m.project = none) ∧
    (∀ m : Mem, m.project = none → projectCond (some p) m = true) := by
  have hproj : ∀ m : Mem, projectCond (some p) m = true →
      m.project = some p ∨ m.project = none := by
    intro m hm
    unfold projectCond at hm
    dsimp only at hm
    rw [if_neg hp] at hm
    simpa [beq_iff_eq] using hm
  refine ⟨?_, ?_, ?_⟩
  · intro m hm
    have hm2 := List.take_subset _ _ hm
    have hc := (List.mem_filter.mp hm2).2
    unfold recallCond at hc
    simp only [Bool.and_eq_true] at hc
    exact hproj m hc.2
  · intro m hm
    have hm2 := List.take_subset _ _ hm
    rw [mem_sortOrd] at hm2
    have hc := (List.mem_filter.mp hm2).2
    unfold listCond at hc
    simp only [Bool.and_eq_true] at hc
    exact hproj m hc.2
  · intro m hm
    unfold projectCond
    split
    · rfl
    · simp [hm]

/-- C10 witness: the filter instantiated at project beta over a singleton
candidate list. -/
theorem project_filter_spec_witness :
    ("beta" ≠ "") ∧
    (∀ m ∈ recallRows [mkMem 1 "a" (some "beta") (1/2) (4/5) 0 0 none]
      false none (some "beta") 10, m.project = some "beta" ∨ m.project = none) ∧
    (∀ m ∈ list_memories [mkMem 1 "a" (some "beta") (1/2) (4/5) 0 0 none]
      none (some "beta") 10 "score", m.project = some "beta" ∨ m.project = none) ∧
    (∀ m : Mem, m.project = none → projectCond (some "beta") m = true) := by
  have h := project_filter_spec "beta" (by decide)
    [mkMem 1 "a" (some "beta") (1/2) (4/5) 0 0 none]
    [mkMem 1 "a" (some "beta") (1/2) (4/5) 0 0 none] none false 10 "score"
  exact ⟨by decide, h.1, h.2.1, h.2.2⟩

/-- C10 counterexample: with the non-null project filter given by the empty
string, recall returns a record scoped to a different project (alpha), since
the code treats an empty project string as no filter at all. -/
theorem project_filter_cex :
    recallRows [mkMem 1 "a" (some "alpha") (1/2) (4/5) 0 0 none]
      false none (some "") 10
      = [mkMem 1 "a" (some "alpha") (1/2) (4/5) 0 0 none] ∧
    (mkMem 1 "a" (some "alpha") (1/2) (4/5) 0 0 none).project = some "alpha" := by
  with_unfolding_all decide

/-- C1 (amended: running the sweep twice in immediate succession is not in
general a no-op — the decay pass re-applies to every active record that,
after the first run, still has access_count = 0, age strictly over 30 days
and importance above 0.1, multiplying its importance by 0.9 again; if after
the first run no active record satisfies that decay condition and record ids
are distinct, the second run leaves the store identical to the first run
result): under those two hypotheses, running the sweep twice equals running
it once. -/
theorem consolidate_idem_amended (now : ℚ) (s : Store)
    (hids : (s.mems.map (fun m => m.id)).Nodup)
    (hnd : ∀ m ∈ (consolidate now s).mems, ¬ decayCond now m) :
    consolidate now (consolidate now s) = consolidate now s := by
  have hnd2 : ∀ m ∈ consolidateMems now s.mems, ¬ decayCond now m := hnd
  have hd : decayPass now (consolidateMems now s.mems)
      = consolidateMems now s.mems :=
    map_eq_self_of (fun m hm => decayStep_eq_of_not now m (hnd2 m hm))
  have hr : retirePass now (consolidateMems now s.mems)
      = consolidateMems now s.mems :=
    map_eq_self_of (fun m hm => retireStep_eq_of_not now m
      (no_retireCond_consolidate now s.mems m hm))
  have hids2 : ((retirePass now (decayPass now s.mems)).map (fun m => m.id)).Nodup := by
    rw [ids_retirePass, ids_decayPass]
    exact hids
  have hdd : dedupPass now (consolidateMems now s.mems)
      = consolidateMems now s.mems := by
    unfold consolidateMems
    exact dedupPass_idem now _ hids2
  have hmems : consolidateMems now (consolidateMems now s.mems)
      = consolidateMems now s.mems :=
    calc consolidateMems now (consolidateMems now s.mems)
        = dedupPass now (retirePass now
            (decayPass now (consolidateMems now s.mems))) := rfl
      _ = dedupPass now (retirePass now (consolidateMems now s.mems)) := by rw [hd]
      _ = dedupPass now (consolidateMems now s.mems) := by rw [hr]
      _ = consolidateMems now s.mems := hdd
  unfold consolidate
  dsimp only
  rw [hmems]

/-- C1 witness: a store of two duplicate records with nonzero access counts
(no record is decayable), on which the sweep is idempotent. -/
theorem consolidate_idem_amended_witness :
    ((mkStore [mkMem 1 "dup" none (2/5) (4/5) 3 0 none,
        mkMem 2 "dup" none (9/10) (4/5) 1 0 none] 3).mems.map
      (fun m => m.id)).Nodup ∧
    (∀ m ∈ (consolidate 840 (mkStore [mkMem 1 "dup" none (2/5) (4/5) 3 0 none,
        mkMem 2 "dup" none (9/10) (4/5) 1 0 none] 3)).mems, ¬ decayCond 840 m) ∧
    consolidate 840 (consolidate 840 (mkStore [mkMem 1 "dup" none (2/5) (4/5) 3 0 none,
        mkMem 2 "dup" none (9/10) (4/5) 1 0 none] 3))
      = consolidate 840 (mkStore [mkMem 1 "dup" none (2/5) (4/5) 3 0 none,
        mkMem 2 "dup" none (9/10) (4/5) 1 0 none] 3) :=
  ⟨by with_unfolding_all decide, by with_unfolding_all decide,
    consolidate_idem_amended 840 _ (by with_unfolding_all decide)
      (by with_unfolding_all decide)⟩

/-- C1 counterexample: a store holding one Active record of importance 0.5,
zero accesses, 35 days old. The first sweep decays it to 0.45; a second
immediate sweep at the same time decays it again to 0.405, so the store
after the second run differs from the store after the first run and the
sweep is not idempotent. -/
theorem consolidate_idem_cex :
    ((consolidate 840 (mkStore [mkMem 1 "a" none (1/2) (4/5) 0 0 none] 2)).mems.map
      (fun m => m.importance) = [9/20]) ∧
    ((consolidate 840 (consolidate 840
        (mkStore [mkMem 1 "a" none (1/2) (4/5) 0 0 none] 2))).mems.map
      (fun m => m.importance) = [81/200]) ∧
    consolidate 840 (consolidate 840 (mkStore [mkMem 1 "a" none (1/2) (4/5) 0 0 none] 2))
      ≠ consolidate 840 (mkStore [mkMem 1 "a" none (1/2) (4/5) 0 0 none] 2) := by
  with_unfolding_all decide

/-- C2: correct on an existing record (found by id) appends exactly one new
record, which is Active with category, project cloned from the old record,
importance max(old, 0.7), confidence 0.9 and the new content; the tags of
the new record are exactly those of the old record; the supersedes edge from
the new id to the old id is inserted; and every record carrying the old id
has superseded_by set to the new id. -/
theorem correct_spec (s : Store) (now : ℚ) (sess : Option String) (old : Mem)
    (c : String) (r : Option String)
    (hwfm : ∀ m ∈ s.mems, m.id < s.nextId)
    (hwft : ∀ t ∈ s.tags, t.1 < s.nextId)
    (hids : (s.mems.map (fun m => m.id)).Nodup)
    (hold : old ∈ s.mems) :
    (correct s now sess old.id c r).mems
      = s.mems.map (fun m =>
          if m.id == old.id then { m with superseded_by := some ((s.nextId : Nat) : Int) }
          else m) ++ [newMemOf s now sess old.id c r old] ∧
    (newMemOf s now sess old.id c r old).id = s.nextId ∧
    (newMemOf s now sess old.id c r old).superseded_by = none ∧
    (newMemOf s now sess old.id c r old).category = old.category ∧
    (newMemOf s now sess old.id c r old).project = old.project ∧
    (newMemOf s now sess old.id c r old).importance = max old.importance (7/10) ∧
    (newMemOf s now sess old.id c r old).confidence = 9/10 ∧
    (newMemOf s now sess old.id c r old).content = c ∧
    (∀ tg : String, (s.nextId, tg) ∈ (correct s now sess old.id c r).tags
      ↔ (old.id, tg) ∈ s.tags) ∧
    ((s.nextId, old.id, "supersedes") ∈ (correct s now sess old.id c r).relations) ∧
    (∀ m2 ∈ (correct s now sess old.id c r).mems, m2.id = old.id →
      m2.superseded_by = some ((s.nextId : Nat) : Int)) := by
  have hf := find?_id_of_nodup s.mems hids old hold
  have hEq := correct_eq_of_some s now sess old.id c r old hf
  rw [hEq]
  refine ⟨rfl, rfl, rfl, rfl, rfl, rfl, rfl, rfl, ?_, ?_, ?_⟩
  · intro tg
    dsimp only
    rw [mem_insertTags]
    constructor
    · rintro (h | h)
      · exact absurd (hwft _ h) (by omega)
      · obtain ⟨t, htf, hteq⟩ := List.mem_map.mp h
        obtain ⟨htmem, htc⟩ := List.mem_filter.mp htf
        have ht1 : t.1 = old.id := by simpa using htc
        have ht2 : t.2 = tg := by
          have := congrArg Prod.snd hteq
          simpa using this
        have hteq2 : t = (old.id, tg) := by
          cases t
          simp_all
        rw [← hteq2]
        exact htmem
    · intro h
      refine Or.inr (List.mem_map.mpr ⟨(old.id, tg), ?_, rfl⟩)
      rw [List.mem_filter]
      exact ⟨h, by simp⟩
  · exact self_mem_insertRel _ _
  · intro m2 hm2 hid2
    dsimp only at hm2
    rcases List.mem_append.mp hm2 with h | h
    · obtain ⟨m, _, rfl⟩ := List.mem_map.mp h
      by_cases hc2 : (m.id == old.id) = true
      · rw [if_pos hc2]
      · rw [if_neg hc2] at hid2 ⊢
        exfalso
        exact hc2 (by simp [hid2])
    · rw [List.mem_singleton] at h
      subst h
      exfalso
      have hlt := hwfm old hold
      have hnid : s.nextId = old.id := hid2
      omega

/-- C2 witness: correcting the Active record of sampleStore (one record
with one tag): the supersedes edge appears and the new record id 2 carries
exactly the tags of record 1. -/
theorem correct_spec_witness :
    (mkMem 1 "x" none (1/2) (4/5) 0 0 none) ∈ sampleStore.mems ∧
    ((sampleStore.nextId, (mkMem 1 "x" none (1/2) (4/5) 0 0 none).id, "supersedes")
      ∈ (correct sampleStore 5 none (mkMem 1 "x" none (1/2) (4/5) 0 0 none).id
          "x2" none).relations) ∧
    (∀ tg : String,
      (sampleStore.nextId, tg) ∈ (correct sampleStore 5 none
          (mkMem 1 "x" none (1/2) (4/5) 0 0 none).id "x2" none).tags
        ↔ ((mkMem 1 "x" none (1/2) (4/5) 0 0 none).id, tg) ∈ sampleStore.tags) := by
  have h := correct_spec sampleStore 5 none (mkMem 1 "x" none (1/2) (4/5) 0 0 none)
    "x2" none (by decide) (by decide) (by decide) (by with_unfolding_all decide)
  exact ⟨by with_unfolding_all decide, h.2.2.2.2.2.2.2.2.2.1, h.2.2.2.2.2.2.2.2.1⟩

/-- C3: in the dedup pass, for an active record m of a group of two or more
records sharing one normalized content key, the keeper K belongs to the
group, every group member is Active (so records retired earlier in the same
sweep are in no group) and is at most K in the lexicographic order on
(access_count, importance); a non-keeper m transitions to Superseded with
superseded_by = keeper id, and the keeper itself stays unchanged. -/
theorem dedup_keeper_spec (now : ℚ) (l : List Mem) (m K : Mem)
    (hm : m ∈ l) (hact : m.superseded_by = none)
    (hK : dedupKeeper l (normKey m.content) = some K)
    (h2 : 2 ≤ (activeGroup l (normKey m.content)).length) :
    K ∈ activeGroup l (normKey m.content) ∧
    (∀ x ∈ activeGroup l (normKey m.content), lexLe x K ∧ x.superseded_by = none) ∧
    (m.id ≠ K.id →
      { m with superseded_by := some ((K.id : Nat) : Int), updated_at := now }
        ∈ dedupPass now l) ∧
    (m.id = K.id → m ∈ dedupPass now l) := by
  have hK0 := hK
  unfold dedupKeeper at hK0
  cases hs : sortById (activeGroup l (normKey m.content)) with
  | nil =>
    rw [hs] at hK0
    exact absurd hK0 (by simp)
  | cons c0 rest =>
    rw [hs] at hK0
    dsimp only at hK0
    have hKeq : pickKeeper c0 rest = K := Option.some.inj hK0
    have hmemK : K ∈ activeGroup l (normKey m.content) := by
      have h1 : pickKeeper c0 rest ∈ c0 :: rest := pickKeeper_mem c0 rest
      rw [hKeq, ← hs] at h1
      unfold sortById at h1
      exact (mem_sortOrd _ _ _).mp h1
    have hmax : ∀ x ∈ activeGroup l (normKey m.content),
        lexLe x K ∧ x.superseded_by = none := by
      intro x hx
      constructor
      · have hx2 : x ∈ sortById (activeGroup l (normKey m.content)) := by
          unfold sortById
          exact (mem_sortOrd _ _ _).mpr hx
        rw [hs] at hx2
        have hmx := pickKeeper_max c0 rest x hx2
        rwa [hKeq] at hmx
      · have hxf := (List.mem_filter.mp hx).2
        simp only [decide_eq_true_eq] at hxf
        exact hxf.1
    refine ⟨hmemK, hmax, ?_, ?_⟩
    · intro hne
      unfold dedupPass
      refine List.mem_map.mpr ⟨m, hm, ?_⟩
      unfold dedupStep
      rw [hK]
      dsimp only
      rw [if_pos ⟨hact, h2, hne⟩]
    · intro heq
      unfold dedupPass
      refine List.mem_map.mpr ⟨m, hm, ?_⟩
      unfold dedupStep
      rw [hK]
      dsimp only
      rw [if_neg]
      rintro ⟨-, -, hne⟩
      exact hne heq

/-- C3 witness: two active duplicates, one with access_count 3 and
importance 0.4, the other with access_count 1 and importance 0.9: the
keeper is the first (access_count dominates importance) and the second is
superseded in its favor. -/
theorem dedup_keeper_spec_witness :
    (mkMem 2 "dup" none (9/10) (4/5) 1 0 none) ∈
      [mkMem 1 "dup" none (2/5) (4/5) 3 0 none,
        mkMem 2 "dup" none (9/10) (4/5) 1 0 none] ∧
    dedupKeeper [mkMem 1 "dup" none (2/5) (4/5) 3 0 none,
        mkMem 2 "dup" none (9/10) (4/5) 1 0 none]
      (normKey (mkMem 2 "dup" none (9/10) (4/5) 1 0 none).content)
      = some (mkMem 1 "dup" none (2/5) (4/5) 3 0 none) ∧
    2 ≤ (activeGroup [mkMem 1 "dup" none (2/5) (4/5) 3 0 none,
        mkMem 2 "dup" none (9/10) (4/5) 1 0 none]
      (normKey (mkMem 2 "dup" none (9/10) (4/5) 1 0 none).content)).length ∧
    { mkMem 2 "dup" none (9/10) (4/5) 1 0 none with
        superseded_by :=
          some (((mkMem 1 "dup" none (2/5) (4/5) 3 0 none).id : Nat) : Int),
        updated_at := (0 : ℚ) }
      ∈ dedupPass 0 [mkMem 1 "dup" none (2/5) (4/5) 3 0 none,
        mkMem 2 "dup" none (9/10) (4/5) 1 0 none] := by
  have h := dedup_keeper_spec 0
    [mkMem 1 "dup" none (2/5) (4/5) 3 0 none,
      mkMem 2 "dup" none (9/10) (4/5) 1 0 none]
    (mkMem 2 "dup" none (9/10) (4/5) 1 0 none)
    (mkMem 1 "dup" none (2/5) (4/5) 3 0 none)
    (by with_unfolding_all decide) rfl
    (by with_unfolding_all rfl) (by with_unfolding_all decide)
  exact ⟨by with_unfolding_all decide, by with_unfolding_all rfl,
    by with_unfolding_all decide, h.2.2.1 (by decide)⟩

/-- C9: for nonnegative importance and confidence, the score is
monotonically non-increasing in the parsed age (hours) for fixed importance,
confidence and access count, monotonically non-decreasing in access count
for a fixed age, and a malformed or missing timestamp (the none parse)
yields the fallback decay factor one half. -/
theorem score_spec (imp conf : ℚ) (himp : 0 ≤ imp) (hconf : 0 ≤ conf) :
    (∀ (acc : ℕ) (h1 h2 : ℚ), h1 ≤ h2 →
      score_memory imp conf acc (some h2) ≤ score_memory imp conf acc (some h1)) ∧
    (∀ (hoursOld : Option ℚ) (a1 a2 : ℕ), a1 ≤ a2 →
      score_memory imp conf a1 hoursOld ≤ score_memory imp conf a2 hoursOld) ∧
    (∀ acc : ℕ, score_memory imp conf acc none
      = ((effImportance imp : ℚ) : ℝ) * ((effConfidence conf : ℚ) : ℝ) *
          ((freqBoost acc : ℚ) : ℝ) * (1/2)) := by
  have heimp : (0 : ℚ) ≤ effImportance imp := by
    unfold effImportance
    split
    · norm_num
    · exact himp
  have heconf : (0 : ℚ) ≤ effConfidence conf := by
    unfold effConfidence
    split
    · norm_num
    · exact hconf
  have hfreq : ∀ a : ℕ, (0 : ℚ) ≤ freqBoost a := by
    intro a
    unfold freqBoost
    positivity
  have hfreqmono : ∀ a1 a2 : ℕ, a1 ≤ a2 → freqBoost a1 ≤ freqBoost a2 := by
    intro a1 a2 h
    unfold freqBoost
    have hc : (a1 : ℚ) ≤ (a2 : ℚ) := Nat.cast_le.mpr h
    nlinarith
  have hdec_nonneg : ∀ ho : Option ℚ, (0 : ℝ) ≤ timeDecay ho := by
    intro ho
    cases ho with
    | none =>
      unfold timeDecay
      norm_num
    | some h =>
      unfold timeDecay
      exact Real.rpow_nonneg (by norm_num) _
  have hE : (0 : ℝ) ≤ ((effImportance imp : ℚ) : ℝ) * ((effConfidence conf : ℚ) : ℝ) :=
    mul_nonneg (by exact_mod_cast heimp) (by exact_mod_cast heconf)
  refine ⟨?_, ?_, ?_⟩
  · intro acc h1 h2 h
    unfold score_memory
    apply mul_le_mul_of_nonneg_left
    · unfold timeDecay
      apply Real.rpow_le_rpow_of_exponent_ge (by norm_num) (by norm_num)
      exact max_le_max (by exact_mod_cast h) le_rfl
    · exact mul_nonneg hE (by exact_mod_cast hfreq acc)
  · intro ho a1 a2 h
    unfold score_memory
    apply mul_le_mul_of_nonneg_right
    · apply mul_le_mul_of_nonneg_left _ hE
      exact_mod_cast hfreqmono a1 a2 h
    · exact hdec_nonneg ho
  · intro acc
    unfold score_memory timeDecay
    norm_num

/-- C9 witness: the scoring monotonicity instantiated at importance 0.5,
confidence 1, comparing ages 1 and 2 hours and access counts 0 and 1, and
the fallback factor at the none parse. -/
theorem score_spec_witness :
    (0 : ℚ) ≤ 1/2 ∧ (0 : ℚ) ≤ 1 ∧
    score_memory (1/2) 1 0 (some 2) ≤ score_memory (1/2) 1 0 (some 1) ∧
    score_memory (1/2) 1 0 (some 1) ≤ score_memory (1/2) 1 1 (some 1) ∧
    score_memory (1/2) 1 0 none
      = ((effImportance (1/2) : ℚ) : ℝ) * ((effConfidence 1 : ℚ) : ℝ) *
          ((freqBoost 0 : ℚ) : ℝ) * (1/2) := by
  have h := score_spec (1/2) 1 (by norm_num) (by norm_num)
  exact ⟨by norm_num, by norm_num, h.1 0 1 2 (by norm_num),
    h.2.1 (some 1) 0 1 (by norm_num), h.2.2 0⟩

end Mnemon
